import Mathlib

/-!
Verification of the HTML-to-text content extractor and crew construction of
`app/crew_definition.py`.

The Python code is shallowly embedded as follows.

The network fetch (`requests.get` + `raise_for_status`) is external; the
outcome of fetching and parsing is an input of the model, of type
`FetchResult`: either a failure carrying the exception message (network
error, timeout, non-success HTTP status, parse error), or a parsed HTML
document tree as produced by BeautifulSoup.  Documents are rose trees
(`Node`): text nodes (NavigableString) and element nodes with a tag name,
attributes and children.

All character-level operations of the Python code (`str.strip`,
`str.splitlines`, `str.split("  ")`, `str.startswith`, slicing) are embedded
as executable functions on `List Char`, matching CPython semantics on the
whitespace characters space, tab, newline and carriage return.
-/

/-- Whitespace for the purpose of `str.strip` and line trimming: the
common whitespace characters handled by the model. -/
def pyWS (c : Char) : Bool :=
  c = ' ' || c = '\t' || c = '\n' || c = '\r'

/-- Drop leading whitespace, as the first half of Python `str.strip`. -/
def dropLeadWS : List Char → List Char
  | [] => []
  | c :: rest => if pyWS c then dropLeadWS rest else c :: rest

/-- Drop trailing whitespace, the second half of Python `str.strip`. -/
def dropTrailWS (l : List Char) : List Char :=
  (dropLeadWS l.reverse).reverse

/-- Python `str.strip()` on a character list. -/
def stripChars (l : List Char) : List Char :=
  dropLeadWS (dropTrailWS l)

/-- Python `str.splitlines()` on a character list: split at `\n`, `\r\n`
and `\r` boundaries; a trailing boundary does not produce an extra empty
line, and the empty string has no lines. -/
def slp : List Char → List (List Char)
  | [] => []
  | c :: rest =>
    if c = '\r' ∧ rest.head? = some '\n' then [] :: slp rest.tail
    else if c = '\n' ∨ c = '\r' then [] :: slp rest
    else match slp rest with
      | [] => [[c]]
      | l :: ls => (c :: l) :: ls
termination_by l => l.length
decreasing_by
  · simp; omega
  · simp
  · simp

/-- Python `line.split("  ")`: split at each non-overlapping occurrence of
two consecutive spaces, scanning left to right. -/
def splitTwoSp : List Char → List (List Char)
  | [] => [[]]
  | c :: rest =>
    if c = ' ' ∧ rest.head? = some ' ' then [] :: splitTwoSp rest.tail
    else match splitTwoSp rest with
      | [] => [[c]]
      | l :: ls => (c :: l) :: ls
termination_by l => l.length
decreasing_by
  · simp; omega
  · simp

/-- Join a list of lines with single `\n` characters (Python
`"\n".join`). -/
def intercalateNL : List (List Char) → List Char
  | [] => []
  | [l] => l
  | l :: ls => l ++ '\n' :: intercalateNL ls

/-- The nested generator `(phrase for line in lines for phrase in
line.split("  "))`, flattened. -/
def splitChunks : List (List Char) → List (List Char)
  | [] => []
  | l :: ls => splitTwoSp l ++ splitChunks ls

/-- Lines 48-50 of `crew_definition.py`:
`lines = (line.strip() for line in text.splitlines())`,
`chunks = (phrase.strip() for line in lines for phrase in line.split("  "))`,
`text = '\n'.join(chunk for chunk in chunks if chunk)`. -/
def cleanedText (cs : List Char) : List Char :=
  let lines := (slp cs).map stripChars
  let chunks := (splitChunks lines).map stripChars
  intercalateNL (chunks.filter (fun c => !c.isEmpty))

/-- Boolean prefix test on character lists (Python `str.startswith`). -/
def startsL : List Char → List Char → Bool
  | [], _ => true
  | _ :: _, [] => false
  | a :: as, b :: bs => a = b && startsL as bs

/-- Boolean substring test on character lists. -/
def containsL (needle : List Char) : List Char → Bool
  | [] => startsL needle []
  | c :: rest => startsL needle (c :: rest) || containsL needle rest

/-- A node of the parsed HTML tree as produced by BeautifulSoup:
either a NavigableString or a tag with attributes and children. -/
inductive Node where
  | text : String → Node
  | elem : (tag : String) → (attrs : List (String × String)) → (children : List Node) → Node

/-- Attribute lookup, first match (BeautifulSoup `tag.get`). -/
def getAttr : List (String × String) → String → Option String
  | [], _ => none
  | (k, v) :: rest, key => if k = key then some v else getAttr rest key

/-- `link.get_text(strip=True)`: concatenation of every descendant string,
each individually stripped. -/
def anchorTextF : List Node → List Char
  | [] => []
  | .text s :: rest => stripChars s.data ++ anchorTextF rest
  | .elem _ _ c :: rest => anchorTextF c ++ anchorTextF rest
termination_by f => sizeOf f

/-- `soup.get_text()`: concatenation of every descendant string, raw. -/
def getTextF : List Node → List Char
  | [] => []
  | .text s :: rest => s.data ++ getTextF rest
  | .elem _ _ c :: rest => getTextF c ++ getTextF rest
termination_by f => sizeOf f

/-- Lines 32-33: `for script in soup(["script", "style"]): script.decompose()`.
Every script or style element is removed together with its whole subtree. -/
def stripScriptsF : List Node → List Node
  | [] => []
  | .text s :: rest => .text s :: stripScriptsF rest
  | .elem t a c :: rest =>
    if t = "script" ∨ t = "style" then stripScriptsF rest
    else .elem t a (stripScriptsF c) :: stripScriptsF rest
termination_by f => sizeOf f

/-- The markdown replacement string `f"[{text}]({href})"` of line 42. -/
def tokenOf (attrs : List (String × String)) (children : List Node) : List Char :=
  '[' :: anchorTextF children ++ ']' :: '(' :: ((getAttr attrs "href").getD "").data ++ [')']

/-- The test of lines 36-40: the node is an `a` tag carrying an `href`
attribute, and `href and text and not href.startswith('#') and not
href.startswith('javascript:')` holds for its href and stripped text. -/
def isQAnchor : Node → Bool
  | .text _ => false
  | .elem tag attrs children =>
    tag = "a" &&
    match getAttr attrs "href" with
    | none => false
    | some href =>
      !href.data.isEmpty && !(anchorTextF children).isEmpty &&
      !startsL "#".data href.data && !startsL "javascript:".data href.data

/-- Lines 36-42: every anchor satisfying `isQAnchor` is replaced in place
by the literal markdown text; other nodes are kept and their children
processed (replaced anchors detach their subtree, so anchors nested below
them are never rewritten in the live tree). -/
def rewriteForest : List Node → List Node
  | [] => []
  | .text s :: rest => .text s :: rewriteForest rest
  | .elem tag attrs children :: rest =>
    if isQAnchor (.elem tag attrs children) then
      .text ⟨tokenOf attrs children⟩ :: rewriteForest rest
    else
      .elem tag attrs (rewriteForest children) :: rewriteForest rest
termination_by f => sizeOf f

/-- Outcome of `requests.get(url, ...)` + `raise_for_status()` + parsing:
either an exception with its message (timeout, connection error,
non-success HTTP status turned into an exception by `raise_for_status`,
parse error), or the parsed document. -/
inductive FetchResult where
  | failure : String → FetchResult
  | success : List Node → FetchResult

/-- The pure part of `fetch_url_content` applied to a parsed document:
script/style removal, link rewriting, text extraction, whitespace
cleanup. -/
def extractFromDoc (doc : List Node) : String :=
  ⟨cleanedText (getTextF (rewriteForest (stripScriptsF doc)))⟩

/-- `fetch_url_content` (lines 12-54): the `try` block maps a parsed
document through the extraction pipeline; the `except` block turns any
exception into the sentinel string. -/
def fetch_url_content : FetchResult → String
  | .failure msg => "Error fetching URL: " ++ msg
  | .success doc => extractFromDoc doc

/-- Modelled from the spec (section 3, ExtractedText invariant): the text
of the document with every anchor that has non-empty visible text and a
non-empty, non-fragment, non-script href represented by exactly one
markdown link token, in the document order it appeared; all other anchors
are dropped with their visible text remaining as plain text. -/
def renderSpecF : List Node → List Char
  | [] => []
  | .text s :: rest => s.data ++ renderSpecF rest
  | .elem tag attrs children :: rest =>
    if isQAnchor (.elem tag attrs children) then
      tokenOf attrs children ++ renderSpecF rest
    else
      renderSpecF children ++ renderSpecF rest
termination_by f => sizeOf f

/-- Modelled from the spec (section 4.1, step 6): split into lines, trim
each line, split each trimmed line on two-space runs into chunks, trim
each chunk, and emit one output line per non-empty chunk, in original
order, joined by single newline characters. -/
def cleanSpec (cs : List Char) : List Char :=
  let trimmedLines := List.map stripChars (slp cs)
  let chunkLists := List.map splitTwoSp trimmedLines
  let chunks := List.map stripChars chunkLists.flatten
  let kept := List.filter (fun c => !c.isEmpty) chunks
  intercalateNL kept

/-- Replace the contents of every script and style element by nothing,
leaving everything else untouched.  Two documents that differ only inside
script/style elements have the same image under `scrubF`. -/
def scrubF : List Node → List Node
  | [] => []
  | .text s :: rest => .text s :: scrubF rest
  | .elem t a c :: rest =>
    if t = "script" ∨ t = "style" then .elem t a [] :: scrubF rest
    else .elem t a (scrubF c) :: scrubF rest
termination_by f => sizeOf f

/-- Does the forest contain a script or style element anywhere? -/
def hasScriptStyle : List Node → Bool
  | [] => false
  | .text _ :: rest => hasScriptStyle rest
  | .elem t _ c :: rest =>
    (t = "script" || t = "style") || hasScriptStyle c || hasScriptStyle rest
termination_by f => sizeOf f

/-- Occurrence of a node in a forest at a live position for the link
pass: the node is in the forest, and none of its proper ancestors is a
replaced (qualifying) anchor, so `rewriteForest` reaches it. -/
inductive InForest : Node → List Node → Prop where
  | head (n : Node) (rest : List Node) : InForest n (n :: rest)
  | tail {n m : Node} {rest : List Node} :
      InForest n rest → InForest n (m :: rest)
  | child {n : Node} {t : String} {a : List (String × String)}
      {c rest : List Node} :
      isQAnchor (.elem t a c) = false → InForest n c →
      InForest n (.elem t a c :: rest)

/-- Structural induction over forests of nodes. -/
def forestRec (P : List Node → Prop)
    (h1 : P [])
    (h2 : ∀ s rest, P rest → P (Node.text s :: rest))
    (h3 : ∀ t a c rest, P c → P rest → P (Node.elem t a c :: rest)) :
    ∀ f, P f
  | [] => h1
  | .text s :: rest => h2 s rest (forestRec P h1 h2 h3 rest)
  | .elem t a c :: rest =>
    h3 t a c rest (forestRec P h1 h2 h3 c) (forestRec P h1 h2 h3 rest)
termination_by f => sizeOf f

/-- Configuration handed to `crewai.Agent`: the fields carrying content.
`verbose`, `allow_delegation` and the LLM handle are orchestration-framework
settings without bearing on the claims and are not modelled. -/
structure AgentSpec where
  role : String
  goal : String
  backstory : String
  tools : List String
deriving Repr, DecidableEq

/-- Configuration handed to `crewai.Task`.  `context` lists the indices
(in the task list of the crew) of the tasks whose output this task
depends on. -/
structure TaskSpec where
  description : String
  agentRole : String
  expected_output : String
  context : List Nat
deriving Repr, DecidableEq

/-- Configuration handed to `crewai.Crew`. -/
structure CrewSpec where
  agents : List AgentSpec
  tasks : List TaskSpec
deriving Repr, DecidableEq

/-- The scrape task description up to the embedded page content
(f-string of lines 227-231). -/
def scrapeDescPre (url : String) : String :=
  "\n            Scrape the following web content from " ++ url ++
  " and extract ALL details exactly as they appear:\n            \n            Content:\n            "

/-- The scrape task description after the embedded page content
(lines 231-243). -/
def scrapeDescPost : String :=
  "  \n            \n            Extract the exact details including:\n            - Main title/heading (exact text)\n            - Complete description (verbatim)\n            - All key details exactly as shown\n            - All sections and subsections with their exact content\n            - ALL links and references in markdown format [text](url) - preserve these exactly\n            - Any other information present on the page\n            \n            DO NOT analyze, interpret, or summarize. Provide the exact details as they appear on the page.\n            IMPORTANT: Preserve all markdown-formatted links [text](url) exactly as they appear.\n            "

/-- The markdown task description (lines 250-264). -/
def markdownDesc : String :=
  "\n            Take the scraped content details and transform them into well-formatted markdown.\n            \n            The markdown should:\n            - Preserve ALL exact details from the scraped content without interpretation\n            - Have a clear hierarchical structure with appropriate headers (# ## ###)\n            - Use bullet points and lists where appropriate\n            - Include all markdown-formatted links [text](url) exactly as they appear in the scraped content\n            - Be well-organized and easy to read\n            - Use markdown formatting features like bold, italic, code blocks, etc. where appropriate\n            - NOT add any analysis, commentary, or interpretation\n            \n            CRITICAL: Preserve all links in markdown format [text](url) - do not modify or remove them.\n            Create a comprehensive markdown document with the exact details including all links.\n            "

/-- The assessment task description (lines 271-288). -/
def assessmentDesc : String :=
  "\n            Analyze the markdown proposal content using the (CaPRA) Catalyst Proposal Reviewing Assistant tool.\n            \n            You must:\n            1. Take the markdown content from the previous task (Markdown Documentation Specialist)\n            2. Use the '(CaPRA) Catalyst Proposal Reviewing Assistant' tool to perform a deep assessment of the proposal\n            3. The tool will use Gemini API's deep research capabilities to evaluate the proposal\n            4. Return the JSON assessment exactly as provided by the tool\n            \n            The tool will output a valid JSON object with:\n            - OverallSummary (3-sentence professional summary)\n            - ProposalCompleteness ((+) or (-))\n            - TrustAndReliability (array of 10 criteria assessments)\n            - ContextAndImpact (array of 8 criteria assessments)\n            - FinancialAssessment (array of 3 criteria assessments)\n            \n            Simply pass the markdown content to the tool and return its output.\n            "

/-- The report task description (lines 296-323). -/
def reportDesc : String :=
  "\n            Transform the JSON assessment from the Cardano Proposal Assessment Expert into a beautifully \n            formatted, professional markdown report.\n            \n            The report MUST include the following sections in this order:\n            \n            1. **Executive Summary** - Use the OverallSummary from the JSON\n            2. **Proposal Completeness** - Display the completeness status with visual indicator\n            3. **Trust & Reliability Assessment** - Create a formatted table or list of all 10 criteria\n            4. **Context & Impact Assessment** - Create a formatted table or list of all 8 criteria\n            5. **Financial Assessment** - Create a formatted table or list of all 3 criteria\n            6. **Conclusion** - A brief concluding statement\n            \n            Formatting requirements:\n            - Use appropriate markdown headers (# ## ###)\n            - Use visual indicators for scores:\n              - ✅ for positive (+) scores\n              - ❌ for negative (-) scores\n              - ⚠️ for conditional (+)/(-) or uncertain (?) scores\n            - Use blockquotes (>) for the Executive Summary\n            - Use bullet points or tables for criteria lists\n            - Use horizontal rules (---) to separate major sections\n            - Use bold and italic text appropriately for emphasis\n            - Ensure the report is professional, clean, and easy to read\n            \n            CRITICAL: Preserve ALL data from the JSON assessment without modification. \n            Do not add, remove, or alter any scores or rationales - only format them beautifully.\n            "

/-- Python slicing `s[:n]`: the first `n` characters. -/
def pyTake (s : String) (n : Nat) : String :=
  ⟨s.data.take n⟩

namespace ResearchCrew

/-- `ResearchCrew.create_crew` (lines 154-337).  The fetch outcome is an
input of the model; the method starts with
`url_content = fetch_url_content(url)` and then builds four agents and
four tasks declaratively.  The fetch result is used exactly once, as
`url_content[:8000]` inside the scrape task description. -/
def create_crew (url : String) (fetched : FetchResult) : CrewSpec :=
  let url_content := fetch_url_content fetched
  let content_scraper : AgentSpec :=
    { role := "Content Scraper"
      goal := "Extract exact details from the web content at " ++ url ++ " without analysis"
      backstory := "You are an expert at scraping web content and extracting exact details from web pages, including all titles, descriptions, and other information exactly as they appear on the page."
      tools := [] }
  let markdown_formatter : AgentSpec :=
    { role := "Markdown Documentation Specialist"
      goal := "Transform scraped content into well-structured markdown format without analysis or interpretation"
      backstory := "You are a skilled technical writer who excels at creating clean, well-organized markdown documentation that preserves exact details from the source without adding interpretation or analysis."
      tools := [] }
  let proposal_assessor : AgentSpec :=
    { role := "Cardano Proposal Assessment Expert"
      goal := "Rigorously evaluate Cardano proposals against Trust/Reliability, Context/Impact, and Financial criteria"
      backstory := "You are an impartial, highly structured, and detail-oriented AI analyst specializing in Cardano proposal assessment. You evaluate proposals systematically using a fixed set of criteria and generate structured JSON assessments for downstream processing."
      tools := ["(CaPRA) Catalyst Proposal Reviewing Assistant"] }
  let report_writer : AgentSpec :=
    { role := "Professional Report Writer"
      goal := "Transform structured JSON assessment data into beautifully formatted, professional markdown reports"
      backstory := "You are an expert technical writer who specializes in creating visually appealing, professional reports. You excel at transforming structured data into clear, engaging markdown documents with proper formatting, visual indicators, and logical flow. You preserve all data integrity while making information accessible and attractive."
      tools := [] }
  let scrape_task : TaskSpec :=
    { description := scrapeDescPre url ++ pyTake url_content 8000 ++ scrapeDescPost
      agentRole := "Content Scraper"
      expected_output := "A complete extraction of all exact details from the webpage without analysis, including all links in markdown format"
      context := [] }
  let markdown_task : TaskSpec :=
    { description := markdownDesc
      agentRole := "Markdown Documentation Specialist"
      expected_output := "A well-formatted markdown document containing all exact details from the webpage without analysis, with all links preserved in markdown format"
      context := [] }
  let assessment_task : TaskSpec :=
    { description := assessmentDesc
      agentRole := "Cardano Proposal Assessment Expert"
      expected_output := "A valid JSON object containing a comprehensive structured assessment of the Cardano proposal"
      context := [1] }
  let report_task : TaskSpec :=
    { description := reportDesc
      agentRole := "Professional Report Writer"
      expected_output := "A professional, beautifully formatted markdown report with all assessment data presented in an easy-to-read format with visual indicators"
      context := [2] }
  { agents := [content_scraper, markdown_formatter, proposal_assessor, report_writer]
    tasks := [scrape_task, markdown_task, assessment_task, report_task] }

end ResearchCrew

/-- Hexadecimal digit character for `0 ≤ n < 16` (lower case, as produced
by CPython `json.dumps`). -/
def hexDigit (n : Nat) : Char :=
  if n < 10 then Char.ofNat (48 + n) else Char.ofNat (87 + n)

/-- A `\uXXXX` escape block for a 16-bit value. -/
def u16hex (n : Nat) : List Char :=
  ['\\', 'u', hexDigit (n / 4096 % 16), hexDigit (n / 256 % 16),
   hexDigit (n / 16 % 16), hexDigit (n % 16)]

/-- CPython `json.dumps` escaping of one character of a string, with the
default `ensure_ascii=True`: quote and backslash get a backslash escape,
the common control characters get their shorthand, every other character
outside the printable ASCII range is emitted as `\uXXXX` blocks (a
surrogate pair for characters beyond the basic multilingual plane). -/
def escapeChar (c : Char) : List Char :=
  if c = '"' then ['\\', '"']
  else if c = '\\' then ['\\', '\\']
  else if c = '\n' then ['\\', 'n']
  else if c = '\t' then ['\\', 't']
  else if c = '\r' then ['\\', 'r']
  else if c = '\x08' then ['\\', 'b']
  else if c = '\x0c' then ['\\', 'f']
  else if 0x20 ≤ c.toNat ∧ c.toNat ≤ 0x7e then [c]
  else if c.toNat < 0x10000 then u16hex c.toNat
  else u16hex (0xd800 + (c.toNat - 0x10000) / 1024) ++
       u16hex (0xdc00 + (c.toNat - 0x10000) % 1024)

/-- `json.dumps` escaping of a whole string body. -/
def escString : List Char → List Char
  | [] => []
  | c :: rest => escapeChar c ++ escString rest

/-- `json.dumps({"error": msg})` with CPython default separators. -/
def dumpsError (msg : String) : String :=
  ⟨'\x7b' :: '"' :: 'e' :: 'r' :: 'r' :: 'o' :: 'r' :: '"' :: ':' :: ' ' :: '"' ::
   (escString msg.data ++ ['"', '\x7d'])⟩

/-- A JSON simple escape letter. -/
def isSimpleEsc (c : Char) : Bool :=
  c = '"' || c = '\\' || c = '/' || c = 'b' || c = 'f' || c = 'n' || c = 'r' || c = 't'

/-- A hexadecimal digit, as accepted after `\u`. -/
def isHexB (c : Char) : Bool :=
  ('0' ≤ c && c ≤ '9') || ('a' ≤ c && c ≤ 'f') || ('A' ≤ c && c ≤ 'F')

/-- Four hexadecimal digits, as expected after `\u`; returns the rest. -/
def hex4 : List Char → Option (List Char)
  | d1 :: d2 :: d3 :: d4 :: rest =>
    if isHexB d1 && isHexB d2 && isHexB d3 && isHexB d4 then some rest else none
  | _ => none

theorem hex4_length (l r : List Char) (h : hex4 l = some r) : r.length + 4 = l.length := by
  match l with
  | d1 :: d2 :: d3 :: d4 :: rest =>
    rw [hex4] at h
    split_ifs at h
    cases h
    simp
  | [] => simp [hex4] at h
  | [d1] => simp [hex4] at h
  | [d1, d2] => simp [hex4] at h
  | [d1, d2, d3] => simp [hex4] at h

/-- Recognizer for a JSON string body (after the opening quote), returning
the input following the closing quote.  Models the string grammar accepted
by `json.loads`: no raw control characters, backslash escapes restricted
to the JSON set. -/
def skipStr : List Char → Option (List Char)
  | [] => none
  | '"' :: rest => some rest
  | '\\' :: [] => none
  | '\\' :: e :: rest2 =>
    if isSimpleEsc e then skipStr rest2
    else if e = 'u' then
      match _h : hex4 rest2 with
      | some rest3 => skipStr rest3
      | none => none
    else none
  | c :: rest => if c.toNat < 0x20 then none else skipStr rest
termination_by l => l.length
decreasing_by
  · simp
    omega
  · have := hex4_length _ _ _h
    simp
    omega
  · simp

/-- JSON insignificant whitespace. -/
def jsWS (c : Char) : Bool :=
  c = ' ' || c = '\t' || c = '\n' || c = '\r'

/-- Skip JSON whitespace. -/
def skipWs : List Char → List Char
  | [] => []
  | c :: rest => if jsWS c then skipWs rest else c :: rest

/-- One or more decimal digits, then the rest. -/
def pDigits : List Char → Option (List Char)
  | [] => none
  | c :: rest => if c.isDigit then some (rest.dropWhile Char.isDigit) else none

/-- Recognizer for a JSON number (approximation of the `json.loads` number
grammar: optional sign, digits, optional fraction, optional exponent). -/
def pNum (input : List Char) : Option (List Char) :=
  let i1 := match input with
    | '-' :: r => r
    | _ => input
  match pDigits i1 with
  | none => none
  | some i2 =>
    let frac := match i2 with
      | '.' :: r => pDigits r
      | _ => some i2
    match frac with
    | none => none
    | some i3 =>
      match i3 with
      | 'e' :: r | 'E' :: r =>
        let r2 := match r with
          | '+' :: x => x
          | '-' :: x => x
          | _ => r
        pDigits r2
      | _ => some i3

mutual

/-- Recognizer for one JSON value (fuelled recursion; the callers provide
fuel larger than the input length, which always suffices for inputs the
grammar accepts). -/
def pValue : Nat → List Char → Option (List Char)
  | fuel, input =>
    match fuel with
    | 0 => none
    | fuel' + 1 =>
      match input with
      | [] => none
      | c :: rest =>
        if c = '"' then skipStr rest
        else if c = '\x7b' then pObj fuel' (skipWs rest)
        else if c = '[' then pArr fuel' (skipWs rest)
        else if startsL "true".data input then some (input.drop 4)
        else if startsL "false".data input then some (input.drop 5)
        else if startsL "null".data input then some (input.drop 4)
        else pNum input

/-- Recognizer for the inside of a JSON object, after the opening brace
and any whitespace. -/
def pObj : Nat → List Char → Option (List Char)
  | fuel, input =>
    if input.head? = some '\x7d' then some input.tail
    else match fuel with
      | 0 => none
      | fuel' + 1 =>
        match input with
        | '"' :: rest =>
          match skipStr rest with
          | none => none
          | some r1 =>
            match skipWs r1 with
            | ':' :: r2 =>
              match pValue fuel' (skipWs r2) with
              | none => none
              | some r3 =>
                match skipWs r3 with
                | ',' :: r4 => pObj fuel' (skipWs r4)
                | '\x7d' :: r4 => some r4
                | _ => none
            | _ => none
        | _ => none

/-- Recognizer for the inside of a JSON array, after the opening bracket
and any whitespace. -/
def pArr : Nat → List Char → Option (List Char)
  | fuel, input =>
    if input.head? = some ']' then some input.tail
    else match fuel with
      | 0 => none
      | fuel' + 1 =>
        match pValue fuel' input with
        | none => none
        | some r1 =>
          match skipWs r1 with
          | ',' :: r2 => pArr fuel' (skipWs r2)
          | ']' :: r2 => some r2
          | _ => none

end

/-- Model of `json.loads` succeeding on a string: one JSON value
surrounded by whitespace and nothing else. -/
def jsonValidB (s : String) : Bool :=
  match pValue (s.data.length + 1) (skipWs s.data) with
  | some rest => (skipWs rest).isEmpty
  | none => false

/-- Python slicing `s[n:]`. -/
def pyDrop (s : String) (n : Nat) : String :=
  ⟨s.data.drop n⟩

/-- Python slicing `s[:-n]`. -/
def pyDropRight (s : String) (n : Nat) : String :=
  ⟨s.data.take (s.data.length - n)⟩

/-- Python `str.strip()` on a string. -/
def pyStrip (s : String) : String :=
  ⟨stripChars s.data⟩

/-- Python `str.endswith` on character lists. -/
def endsL (suffix l : List Char) : Bool :=
  startsL suffix.reverse l.reverse

/-- The external state `analyze_proposal_with_gemini` interacts with:
the `GEMINI_API_KEY` environment variable, the outcome of
`model.generate_content(prompt)` (either an exception message, covering
every failure from `genai.configure` through the request, or the response
text), and the message of the `json.loads` exception when validation of
the response fails. -/
structure GeminiEnv where
  gemini_api_key : Option String
  response : Except String String
  loads_error : String

/-- Lines 126-136: strip the response text and remove a leading
```json or ``` fence and a trailing ``` fence, then strip again. -/
def stripFences (raw : String) : String :=
  let t0 := pyStrip raw
  let t1 := if startsL "```json".data t0.data then pyDrop t0 7 else t0
  let t2 := if startsL "```".data t1.data then pyDrop t1 3 else t1
  let t3 := if endsL "```".data t2.data then pyDropRight t2 3 else t2
  pyStrip t3

/-- `analyze_proposal_with_gemini` (lines 57-143).  The prompt built from
`markdown_content` is consumed only by the external model, whose reply is
`env.response`; every exception path of the `try` block returns
`json.dumps({"error": ...})`, and the success path strips markdown code
fences and validates the text with `json.loads` before returning it. -/
def analyze_proposal_with_gemini (env : GeminiEnv) (_markdown_content : String) : String :=
  match env.gemini_api_key with
  | none => dumpsError "GEMINI_API_KEY not configured"
  | some key =>
    if key = "" then dumpsError "GEMINI_API_KEY not configured"
    else
      match env.response with
      | .error e => dumpsError ("Error analyzing proposal: " ++ e)
      | .ok raw =>
        if jsonValidB (stripFences raw) then stripFences raw
        else dumpsError ("Error analyzing proposal: " ++ env.loads_error)

/-! ## Generic helper lemmas -/

theorem strData_append (a b : String) : (a ++ b).data = a.data ++ b.data := by
  cases a; cases b; rfl

theorem startsL_self_append (t q : List Char) : startsL t (t ++ q) = true := by
  induction t with
  | nil => rfl
  | cons c rest ih => simp [startsL, ih]

theorem startsL_iff (t h : List Char) : startsL t h = true ↔ ∃ q, h = t ++ q := by
  induction t generalizing h with
  | nil => simp [startsL]
  | cons c rest ih =>
    cases h with
    | nil => simp [startsL]
    | cons d hr =>
      simp only [startsL, Bool.and_eq_true, decide_eq_true_eq, ih]
      constructor
      · rintro ⟨rfl, q, rfl⟩
        exact ⟨q, rfl⟩
      · rintro ⟨q, hq⟩
        cases hq
        exact ⟨rfl, q, rfl⟩

theorem containsL_iff (t h : List Char) :
    containsL t h = true ↔ ∃ p q, h = p ++ t ++ q := by
  induction h with
  | nil =>
    simp only [containsL, startsL_iff]
    constructor
    · rintro ⟨q, hq⟩
      exact ⟨[], q, by simpa using hq⟩
    · rintro ⟨p, q, hpq⟩
      have hp : p = [] := by
        cases p with
        | nil => rfl
        | cons x xs => simp at hpq
      subst hp
      exact ⟨q, by simpa using hpq⟩
  | cons c r ih =>
    simp only [containsL, Bool.or_eq_true, startsL_iff, ih]
    constructor
    · rintro (⟨q, hq⟩ | ⟨p, q, rfl⟩)
      · exact ⟨[], q, by simpa using hq⟩
      · exact ⟨c :: p, q, rfl⟩
    · rintro ⟨p, q, hpq⟩
      cases p with
      | nil => exact Or.inl ⟨q, by simpa using hpq⟩
      | cons x xs =>
        simp only [List.cons_append, List.cons.injEq] at hpq
        exact Or.inr ⟨xs, q, by simp [hpq.2]⟩

theorem splitChunks_eq_flatten_map (M : List (List Char)) :
    splitChunks M = (M.map splitTwoSp).flatten := by
  induction M with
  | nil => rfl
  | cons l ls ih => simp [splitChunks, ih]

/-! ## C2: exception paths return the sentinel error string -/

/-- C2.  On any exception during fetch or parse — the model folds network
timeouts and the exceptions `raise_for_status` raises for non-success
HTTP status codes into `FetchResult.failure` — `fetch_url_content`
returns the single-line string `"Error fetching URL: <message>"` instead
of propagating the exception (it is a total function into `String`), and
that string starts with the word `"Error"`. -/
theorem c2_error_sentinel (msg : String) :
    fetch_url_content (.failure msg) = "Error fetching URL: " ++ msg ∧
    ∃ tail2, fetch_url_content (.failure msg) = "Error" ++ tail2 := by
  refine ⟨rfl, " fetching URL: " ++ msg, ?_⟩
  show "Error fetching URL: " ++ msg = "Error" ++ (" fetching URL: " ++ msg)
  rw [← String.append_assoc]
  have h : "Error" ++ " fetching URL: " = "Error fetching URL: " := by decide
  rw [h]

/-! ## C6: the extraction pipeline is deterministic -/

/-- C6.  The parse, script/style removal, link rewriting, text extraction
and whitespace-cleanup pipeline is a pure function of the parsed response
body: two calls on identical bodies give identical strings. -/
theorem c6_deterministic (d1 d2 : List Node) (h : d1 = d2) :
    extractFromDoc d1 = extractFromDoc d2 ∧
    (extractFromDoc d1, extractFromDoc d1).1 = (extractFromDoc d1, extractFromDoc d1).2 := by
  cases h
  exact ⟨rfl, rfl⟩

/-- Witness for C6 at a concrete document. -/
theorem c6_deterministic_witness :
    extractFromDoc [Node.text "a"] = extractFromDoc [Node.text "a"] :=
  (c6_deterministic [Node.text "a"] [Node.text "a"] rfl).1

/-! ## C3: the whitespace-normalization step -/

/-- C3.  On the success path the cleanup of lines 48-50 is exactly the
pipeline the spec describes (split into lines, trim, split each trimmed
line at double-space occurrences, trim each chunk, keep the non-empty
chunks in order, join with newlines), and a double-space run inside a
single visual line yields two separate output lines. -/
theorem c3_whitespace_normalization :
    (∀ cs : List Char, cleanedText cs = cleanSpec cs) ∧
    slp (fetch_url_content (.success [Node.text "foo  bar"])).data =
      ["foo".data, "bar".data] := by
  constructor
  · intro cs
    simp only [cleanedText, cleanSpec, splitChunks_eq_flatten_map]
  · simp [fetch_url_content, extractFromDoc, cleanedText, getTextF, rewriteForest,
      stripScriptsF, isQAnchor, stripChars, dropLeadWS, dropTrailWS, pyWS,
      slp, splitTwoSp, splitChunks, intercalateNL]

/-! ## C7: the caller truncates the extracted text to 8000 characters -/

/-- C7.  `create_crew` embeds exactly `url_content[:8000]` — the first
8000 characters of the fetch result — into the scrape task description;
the three other task descriptions are constants, so no more than that
prefix of the extracted text reaches any downstream consumer, and the
embedded prefix never exceeds 8000 characters. -/
theorem c7_truncation (url : String) (r : FetchResult) :
    (ResearchCrew.create_crew url r).tasks.map (fun t => t.description) =
      [scrapeDescPre url ++ pyTake (fetch_url_content r) 8000 ++ scrapeDescPost,
       markdownDesc, assessmentDesc, reportDesc] ∧
    (pyTake (fetch_url_content r) 8000).length ≤ 8000 := by
  refine ⟨rfl, ?_⟩
  show (String.mk ((fetch_url_content r).data.take 8000)).length ≤ 8000
  have h : (String.mk ((fetch_url_content r).data.take 8000)).length =
      ((fetch_url_content r).data.take 8000).length := rfl
  rw [h, List.length_take]
  omega

/-! ## C9: missing API key short-circuits the Gemini tool -/

/-- C9.  With `GEMINI_API_KEY` unset (or set to the empty string, which
is falsy in Python), `analyze_proposal_with_gemini` returns the JSON
encoding of `{"error": "GEMINI_API_KEY not configured"}` — whatever the
model would have answered, so the generative model is never consulted. -/
theorem c9_missing_key (resp : Except String String) (le content : String) :
    analyze_proposal_with_gemini ⟨none, resp, le⟩ content =
      "\x7b\"error\": \"GEMINI_API_KEY not configured\"\x7d" ∧
    analyze_proposal_with_gemini ⟨some "", resp, le⟩ content =
      "\x7b\"error\": \"GEMINI_API_KEY not configured\"\x7d" := by
  constructor <;>
  · show dumpsError "GEMINI_API_KEY not configured" = _
    decide

/-! ## C10: the crew is built even from an error sentinel -/

/-- C10.  `create_crew` never inspects the fetch result for the error
sentinel: on a failed fetch it still builds four agents and four tasks,
with the assessment task depending on the markdown task (index 1) and the
report task depending on the assessment task (index 2), and the error
string is embedded (truncated like any content) in the scrape task
description. -/
theorem c10_error_still_crew (url msg : String) :
    (ResearchCrew.create_crew url (.failure msg)).agents.map (fun a => a.role) =
      ["Content Scraper", "Markdown Documentation Specialist",
       "Cardano Proposal Assessment Expert", "Professional Report Writer"] ∧
    (ResearchCrew.create_crew url (.failure msg)).agents.length = 4 ∧
    (ResearchCrew.create_crew url (.failure msg)).tasks.length = 4 ∧
    (ResearchCrew.create_crew url (.failure msg)).tasks.map (fun t => t.context) =
      [[], [], [1], [2]] ∧
    (ResearchCrew.create_crew url (.failure msg)).tasks.map (fun t => t.description) =
      [scrapeDescPre url ++ pyTake ("Error fetching URL: " ++ msg) 8000 ++ scrapeDescPost,
       markdownDesc, assessmentDesc, reportDesc] ∧
    startsL "Error fetching URL: ".data
      (pyTake ("Error fetching URL: " ++ msg) 8000).data = true := by
  refine ⟨rfl, rfl, rfl, rfl, rfl, ?_⟩
  show startsL "Error fetching URL: ".data
    ((("Error fetching URL: " ++ msg)).data.take 8000) = true
  rw [strData_append, List.take_append_eq_append_take]
  have h1 : ("Error fetching URL: ").data.take 8000 = ("Error fetching URL: ").data := by
    decide
  rw [h1]
  exact startsL_self_append _ _

/-! ## C5: script/style contents never reach the output -/

theorem stripScriptsF_scrubF (f : List Node) :
    stripScriptsF (scrubF f) = stripScriptsF f := by
  induction f using forestRec with
  | h1 => simp [scrubF, stripScriptsF]
  | h2 s rest ih => simp [scrubF, stripScriptsF, ih]
  | h3 t a c rest ihc ihr =>
    by_cases h : t = "script" ∨ t = "style" <;>
      simp [scrubF, stripScriptsF, h, ihc, ihr]

theorem hasScriptStyle_stripScriptsF (f : List Node) :
    hasScriptStyle (stripScriptsF f) = false := by
  induction f using forestRec with
  | h1 => simp [stripScriptsF, hasScriptStyle]
  | h2 s rest ih => simp [stripScriptsF, hasScriptStyle, ih]
  | h3 t a c rest ihc ihr =>
    by_cases h : t = "script" ∨ t = "style"
    · simp [stripScriptsF, h, ihr]
    · push_neg at h
      simp [stripScriptsF, hasScriptStyle, h.1, h.2, ihc, ihr]

/-- C5.  The script/style pass removes every script and style element
before text extraction, and the extraction output does not depend on the
contents of script and style elements at all: scrubbing those contents
does not change the output, so two documents differing only there
extract identically. -/
theorem c5_script_style_removed :
    (∀ doc : List Node, extractFromDoc (scrubF doc) = extractFromDoc doc) ∧
    (∀ d1 d2 : List Node, scrubF d1 = scrubF d2 →
      extractFromDoc d1 = extractFromDoc d2) ∧
    (∀ doc : List Node, hasScriptStyle (stripScriptsF doc) = false) := by
  have key : ∀ doc : List Node, extractFromDoc (scrubF doc) = extractFromDoc doc := by
    intro doc
    unfold extractFromDoc
    rw [stripScriptsF_scrubF]
  refine ⟨key, ?_, hasScriptStyle_stripScriptsF⟩
  intro d1 d2 h
  calc extractFromDoc d1 = extractFromDoc (scrubF d1) := (key d1).symm
    _ = extractFromDoc (scrubF d2) := by rw [h]
    _ = extractFromDoc d2 := key d2

/-- Witness for C5: two script elements with different executable
contents extract to the same string. -/
theorem c5_script_style_removed_witness :
    extractFromDoc [Node.elem "script" [] [Node.text "var x = 1;"]] =
    extractFromDoc [Node.elem "script" [] [Node.text "alert(2)"]] :=
  c5_script_style_removed.2.1 _ _ (by simp [scrubF])

/-! ## C4: output lines are non-empty and trimmed -/

theorem slp_nil : slp [] = [] := by simp [slp]

theorem slp_cons_nl (rest : List Char) : slp ('\n' :: rest) = [] :: slp rest := by
  rw [slp]
  simp

theorem slp_cons_other (c : Char) (rest : List Char) (h1 : c ≠ '\n') (h2 : c ≠ '\r') :
    slp (c :: rest) = match slp rest with
      | [] => [[c]]
      | l :: ls => (c :: l) :: ls := by
  rw [slp]
  simp [h1, h2]

/-- Characters of any line produced by `slp` come from the input and are
never line-break characters. -/
theorem slp_mem_noNL (cs : List Char) :
    ∀ l ∈ slp cs, ∀ c ∈ l, c ≠ '\n' ∧ c ≠ '\r' := by
  induction cs using slp.induct with
  | case1 => simp [slp_nil]
  | case2 c rest h ih =>
    rw [slp, if_pos h]
    intro l hl
    rcases List.mem_cons.mp hl with rfl | hl2
    · simp
    · exact ih l hl2
  | case3 c rest h1 h2 ih =>
    rw [slp, if_neg h1, if_pos h2]
    intro l hl
    rcases List.mem_cons.mp hl with rfl | hl2
    · simp
    · exact ih l hl2
  | case4 c rest h1 h2 hrec ih =>
    have hc1 : c ≠ '\n' := fun hc => h2 (Or.inl hc)
    have hc2 : c ≠ '\r' := fun hc => h2 (Or.inr hc)
    rw [slp_cons_other c rest hc1 hc2, hrec]
    intro l hl d hd
    rcases List.mem_singleton.mp hl with rfl
    rcases List.mem_singleton.mp hd with rfl
    exact ⟨hc1, hc2⟩
  | case5 c rest h1 h2 l0 ls0 hrec ih =>
    have hc1 : c ≠ '\n' := fun hc => h2 (Or.inl hc)
    have hc2 : c ≠ '\r' := fun hc => h2 (Or.inr hc)
    rw [slp_cons_other c rest hc1 hc2, hrec]
    intro l hl d hd
    rcases List.mem_cons.mp hl with rfl | hl2
    · rcases List.mem_cons.mp hd with rfl | hd2
      · exact ⟨hc1, hc2⟩
      · exact ih l0 (by rw [hrec]; exact List.mem_cons_self _ _) d hd2
    · exact ih l (by rw [hrec]; exact List.mem_cons_of_mem _ hl2) d hd

/-- Prepending newline-free text to an input extends its first line. -/
theorem slp_prepend (t post : List Char) (hne : t ≠ [])
    (hnl : ∀ c ∈ t, c ≠ '\n' ∧ c ≠ '\r') :
    slp (t ++ post) = match slp post with
      | [] => [t]
      | l :: ls => (t ++ l) :: ls := by
  induction t with
  | nil => exact absurd rfl hne
  | cons c t' ih =>
    have hc := hnl c (List.mem_cons_self _ _)
    cases t' with
    | nil =>
      rw [List.cons_append, List.nil_append,
        slp_cons_other c post hc.1 hc.2]
      cases h : slp post <;> simp
    | cons d t'' =>
      have ht' : d :: t'' ≠ [] := by simp
      have hnl' : ∀ x ∈ d :: t'', x ≠ '\n' ∧ x ≠ '\r' :=
        fun x hx => hnl x (List.mem_cons_of_mem _ hx)
      rw [List.cons_append, slp_cons_other c _ hc.1 hc.2, ih ht' hnl']
      cases h : slp post <;> simp

/-- Joining non-empty newline-free lines with `\n` and splitting again
recovers the lines. -/
theorem slp_intercalateNL (K : List (List Char))
    (h : ∀ x ∈ K, x ≠ [] ∧ ∀ c ∈ x, c ≠ '\n' ∧ c ≠ '\r') :
    slp (intercalateNL K) = K := by
  induction K with
  | nil => exact slp_nil
  | cons x K' ih =>
    cases K' with
    | nil =>
      have hx := h x (List.mem_cons_self _ _)
      have : intercalateNL [x] = x ++ [] := by simp [intercalateNL]
      rw [this, slp_prepend x [] hx.1 hx.2, slp_nil]
    | cons y K'' =>
      have hx := h x (List.mem_cons_self _ _)
      have hrest : ∀ z ∈ y :: K'', z ≠ [] ∧ ∀ c ∈ z, c ≠ '\n' ∧ c ≠ '\r' :=
        fun z hz => h z (List.mem_cons_of_mem _ hz)
      have hstep : intercalateNL (x :: y :: K'') =
          x ++ ('\n' :: intercalateNL (y :: K'')) := rfl
      rw [hstep, slp_prepend x _ hx.1 hx.2, slp_cons_nl, ih hrest]
      simp

theorem dropLeadWS_head? (l : List Char) (c : Char)
    (h : (dropLeadWS l).head? = some c) : pyWS c = false := by
  induction l with
  | nil => simp [dropLeadWS] at h
  | cons d rest ih =>
    rw [dropLeadWS] at h
    by_cases hd : pyWS d
    · rw [if_pos hd] at h
      exact ih h
    · rw [if_neg hd] at h
      simp at h
      rw [← h]
      simpa using hd

theorem dropLeadWS_suffix (l : List Char) : ∃ p, l = p ++ dropLeadWS l := by
  induction l with
  | nil => exact ⟨[], rfl⟩
  | cons d rest ih =>
    rw [dropLeadWS]
    by_cases hd : pyWS d
    · rw [if_pos hd]
      obtain ⟨p, hp⟩ := ih
      exact ⟨d :: p, by simp [← hp]⟩
    · rw [if_neg hd]
      exact ⟨[], rfl⟩

theorem mem_dropLeadWS (l : List Char) (c : Char) (h : c ∈ dropLeadWS l) : c ∈ l := by
  obtain ⟨p, hp⟩ := dropLeadWS_suffix l
  rw [hp]
  exact List.mem_append_right _ h

theorem mem_stripChars (l : List Char) (c : Char) (h : c ∈ stripChars l) : c ∈ l := by
  unfold stripChars dropTrailWS at h
  have h1 := mem_dropLeadWS _ _ h
  rw [List.mem_reverse] at h1
  have h2 := mem_dropLeadWS _ _ h1
  rwa [List.mem_reverse] at h2

theorem head?_append_left {α : Type} (s t : List α) (h : s ≠ []) :
    (s ++ t).head? = s.head? := by
  cases s with
  | nil => exact absurd rfl h
  | cons a s' => rfl

theorem stripChars_head? (l : List Char) (c : Char)
    (h : (stripChars l).head? = some c) : pyWS c = false :=
  dropLeadWS_head? _ _ h

theorem stripChars_last? (l : List Char) (c : Char)
    (h : (stripChars l).reverse.head? = some c) : pyWS c = false := by
  by_cases hne : stripChars l = []
  · rw [hne] at h
    simp at h
  · obtain ⟨p, hp⟩ := dropLeadWS_suffix (dropTrailWS l)
    have hrev : (stripChars l).reverse.head? = (dropTrailWS l).reverse.head? := by
      conv_rhs => rw [show dropTrailWS l = p ++ stripChars l from hp]
      rw [List.reverse_append]
      rw [head?_append_left _ _ (by simpa using hne)]
    rw [hrev] at h
    unfold dropTrailWS at h
    rw [List.reverse_reverse] at h
    exact dropLeadWS_head? _ _ h

theorem mem_splitTwoSp (l : List Char) :
    ∀ y ∈ splitTwoSp l, ∀ c ∈ y, c ∈ l := by
  induction l using splitTwoSp.induct with
  | case1 =>
    intro y hy c hc
    rw [splitTwoSp] at hy
    rcases List.mem_singleton.mp hy with rfl
    simp at hc
  | case2 c rest h ih =>
    intro y hy d hd
    rw [splitTwoSp, if_pos h] at hy
    rcases List.mem_cons.mp hy with rfl | hy2
    · simp at hd
    · have := ih y hy2 d hd
      rcases h with ⟨rfl, hh⟩
      cases rest with
      | nil => simp at this
      | cons r rest' =>
        have this2 : d ∈ rest' := by simpa using this
        exact List.mem_cons_of_mem _ (List.mem_cons_of_mem _ this2)
  | case3 c rest h hrec ih =>
    intro y hy d hd
    rw [splitTwoSp, if_neg h, hrec] at hy
    rcases List.mem_singleton.mp hy with rfl
    rcases List.mem_singleton.mp hd with rfl
    exact List.mem_cons_self _ _
  | case4 c rest h l0 ls0 hrec ih =>
    intro y hy d hd
    rw [splitTwoSp, if_neg h, hrec] at hy
    rcases List.mem_cons.mp hy with rfl | hy2
    · rcases List.mem_cons.mp hd with rfl | hd2
      · exact List.mem_cons_self _ _
      · exact List.mem_cons_of_mem _
          (ih l0 (by rw [hrec]; exact List.mem_cons_self _ _) d hd2)
    · exact List.mem_cons_of_mem _
        (ih y (by rw [hrec]; exact List.mem_cons_of_mem _ hy2) d hd)

theorem mem_splitChunks (M : List (List Char)) :
    ∀ y ∈ splitChunks M, ∃ x ∈ M, y ∈ splitTwoSp x := by
  induction M with
  | nil => simp [splitChunks]
  | cons x M' ih =>
    intro y hy
    rw [splitChunks] at hy
    rcases List.mem_append.mp hy with h1 | h2
    · exact ⟨x, List.mem_cons_self _ _, h1⟩
    · obtain ⟨x', hx', hy'⟩ := ih y h2
      exact ⟨x', List.mem_cons_of_mem _ hx', hy'⟩

/-- C4.  Every line of a successful extraction result is non-empty and
carries no leading or trailing whitespace. -/
theorem c4_line_invariant (doc : List Node) :
    ∀ l ∈ slp ((fetch_url_content (.success doc)).data),
      l ≠ [] ∧ (∀ c, l.head? = some c → pyWS c = false) ∧
      (∀ c, l.reverse.head? = some c → pyWS c = false) := by
  intro l hl
  have hdata : (fetch_url_content (.success doc)).data =
      cleanedText (getTextF (rewriteForest (stripScriptsF doc))) := rfl
  rw [hdata] at hl
  have hclean : cleanedText (getTextF (rewriteForest (stripScriptsF doc))) =
      intercalateNL
        (((splitChunks ((slp (getTextF (rewriteForest (stripScriptsF doc)))).map
          stripChars)).map stripChars).filter (fun c => !c.isEmpty)) := rfl
  rw [hclean] at hl
  have hK : ∀ x ∈ ((splitChunks ((slp (getTextF (rewriteForest
      (stripScriptsF doc)))).map stripChars)).map stripChars).filter
      (fun c => !c.isEmpty),
      x ≠ [] ∧ ∀ c ∈ x, c ≠ '\n' ∧ c ≠ '\r' := by
    intro x hx
    obtain ⟨hx1, hx2⟩ := List.mem_filter.mp hx
    obtain ⟨ph, hph, rfl⟩ := List.mem_map.mp hx1
    refine ⟨by simpa using hx2, ?_⟩
    intro c hc
    have hcph : c ∈ ph := mem_stripChars _ _ hc
    obtain ⟨line, hline, hphl⟩ := mem_splitChunks _ ph hph
    obtain ⟨line0, hline0, rfl⟩ := List.mem_map.mp hline
    have hcl : c ∈ stripChars line0 := mem_splitTwoSp _ ph hphl c hcph
    have hcl0 : c ∈ line0 := mem_stripChars _ _ hcl
    exact slp_mem_noNL _ line0 hline0 c hcl0
  rw [slp_intercalateNL _ hK] at hl
  obtain ⟨hl1, hl2⟩ := List.mem_filter.mp hl
  obtain ⟨ph, hph, rfl⟩ := List.mem_map.mp hl1
  exact ⟨by simpa using hl2,
    fun c hc => stripChars_head? _ _ hc,
    fun c hc => stripChars_last? _ _ hc⟩

/-- Witness for C4 at a concrete document whose text needs trimming. -/
theorem c4_line_invariant_witness :
    (['h', 'i'] : List Char) ≠ [] ∧
    (∀ c, (['h', 'i'] : List Char).head? = some c → pyWS c = false) ∧
    (∀ c, (['h', 'i'] : List Char).reverse.head? = some c → pyWS c = false) :=
  c4_line_invariant [Node.text " hi "] ['h', 'i']
    (by simp [fetch_url_content, extractFromDoc, cleanedText, getTextF,
      rewriteForest, stripScriptsF, isQAnchor, slp, splitTwoSp, splitChunks,
      intercalateNL, stripChars, dropLeadWS, dropTrailWS, pyWS])

/-! ## C8: the Gemini tool always returns valid JSON -/

theorem hexDigit_isHex (k : Nat) (h : k < 16) : isHexB (hexDigit k) = true := by
  interval_cases k <;> decide

theorem skipStr_quote (rest : List Char) : skipStr ('"' :: rest) = some rest := by
  simp [skipStr]

theorem skipStr_esc_simple (e : Char) (rest : List Char) (h : isSimpleEsc e = true) :
    skipStr ('\\' :: e :: rest) = skipStr rest := by
  simp [skipStr, h]

theorem skipStr_plain (c : Char) (rest : List Char) (hc1 : c ≠ '"')
    (hc2 : c ≠ '\\') (hc3 : ¬ c.toNat < 0x20) :
    skipStr (c :: rest) = skipStr rest := by
  rw [skipStr.eq_def]
  simp [hc1, hc2, hc3]

theorem skipStr_esc_u (d1 d2 d3 d4 : Char) (rest : List Char)
    (g1 : isHexB d1 = true) (g2 : isHexB d2 = true)
    (g3 : isHexB d3 = true) (g4 : isHexB d4 = true) :
    skipStr ('\\' :: 'u' :: d1 :: d2 :: d3 :: d4 :: rest) = skipStr rest := by
  have hh : hex4 (d1 :: d2 :: d3 :: d4 :: rest) = some rest := by
    simp [hex4, g1, g2, g3, g4]
  rw [skipStr]
  rw [if_neg (by decide : ¬ isSimpleEsc 'u' = true), if_pos (rfl : ('u' : Char) = 'u')]
  split
  · next rest3 heq =>
    rw [hh] at heq
    cases heq
    rfl
  · next heq =>
    rw [hh] at heq
    cases heq

theorem u16hex_skipStr (n : Nat) (rest : List Char) :
    skipStr (u16hex n ++ rest) = skipStr rest := by
  have h1 := hexDigit_isHex (n / 4096 % 16) (Nat.mod_lt _ (by norm_num))
  have h2 := hexDigit_isHex (n / 256 % 16) (Nat.mod_lt _ (by norm_num))
  have h3 := hexDigit_isHex (n / 16 % 16) (Nat.mod_lt _ (by norm_num))
  have h4 := hexDigit_isHex (n % 16) (Nat.mod_lt _ (by norm_num))
  exact skipStr_esc_u _ _ _ _ rest h1 h2 h3 h4

theorem escapeChar_skipStr (c : Char) (rest : List Char) :
    skipStr (escapeChar c ++ rest) = skipStr rest := by
  unfold escapeChar
  split_ifs with h1 h2 h3 h4 h5 h6 h7 h8 h9
  · exact skipStr_esc_simple _ _ (by decide)
  · exact skipStr_esc_simple _ _ (by decide)
  · exact skipStr_esc_simple _ _ (by decide)
  · exact skipStr_esc_simple _ _ (by decide)
  · exact skipStr_esc_simple _ _ (by decide)
  · exact skipStr_esc_simple _ _ (by decide)
  · exact skipStr_esc_simple _ _ (by decide)
  · exact skipStr_plain c rest h1 h2 (by omega)
  · exact u16hex_skipStr _ _
  · rw [List.append_assoc, u16hex_skipStr, u16hex_skipStr]

theorem escString_skipStr (m : List Char) (rest : List Char) :
    skipStr (escString m ++ '"' :: rest) = some rest := by
  induction m with
  | nil =>
    show skipStr ('"' :: rest) = some rest
    exact skipStr_quote rest
  | cons c m' ih =>
    show skipStr ((escapeChar c ++ escString m') ++ '"' :: rest) = some rest
    rw [List.append_assoc, escapeChar_skipStr, ih]

theorem pValue_quote (fuel : Nat) (rest : List Char) :
    pValue (fuel + 1) ('"' :: rest) = skipStr rest := by
  rw [pValue]
  simp

theorem skipStr_key (rest : List Char) :
    skipStr ('e' :: 'r' :: 'r' :: 'o' :: 'r' :: '"' :: rest) = some rest := by
  rw [skipStr_plain 'e' _ (by decide) (by decide) (by decide)]
  rw [skipStr_plain 'r' _ (by decide) (by decide) (by decide)]
  rw [skipStr_plain 'r' _ (by decide) (by decide) (by decide)]
  rw [skipStr_plain 'o' _ (by decide) (by decide) (by decide)]
  rw [skipStr_plain 'r' _ (by decide) (by decide) (by decide)]
  exact skipStr_quote rest

theorem pObj_dumps (fuel : Nat) (msg : String) :
    pObj (fuel + 2) ('"' :: 'e' :: 'r' :: 'r' :: 'o' :: 'r' :: '"' :: ':' :: ' ' :: '"' ::
      (escString msg.data ++ ['"', '\x7d'])) = some [] := by
  rw [pObj]
  simp only [List.head?, reduceIte, show (('"' : Char) = '\x7d') = False from by simp]
  rw [skipStr_key]
  simp only [skipWs, jsWS, reduceIte]
  simp
  rw [show skipWs (' ' :: '"' :: (escString msg.data ++ ['"', '\x7d'])) =
    '"' :: (escString msg.data ++ ['"', '\x7d']) from by simp [skipWs, jsWS]]
  rw [pValue_quote, escString_skipStr]
  simp [skipWs, jsWS]

theorem pValue_dumps (fuel : Nat) (msg : String) :
    pValue (fuel + 3) ('\x7b' :: '"' :: 'e' :: 'r' :: 'r' :: 'o' :: 'r' :: '"' :: ':' :: ' ' :: '"' ::
      (escString msg.data ++ ['"', '\x7d'])) = some [] := by
  rw [pValue]
  simp [skipWs, jsWS]
  exact pObj_dumps fuel msg

/-- Every error object the tool can emit is valid JSON, whatever the
message. -/
theorem jsonValidB_dumpsError (msg : String) : jsonValidB (dumpsError msg) = true := by
  have hdata : (dumpsError msg).data = '\x7b' :: '"' :: 'e' :: 'r' :: 'r' :: 'o' :: 'r' :: '"' ::
      ':' :: ' ' :: '"' :: (escString msg.data ++ ['"', '\x7d']) := rfl
  rw [jsonValidB, hdata]
  have hlen : ('\x7b' :: '"' :: 'e' :: 'r' :: 'r' :: 'o' :: 'r' :: '"' :: ':' :: ' ' :: '"' ::
      (escString msg.data ++ ['"', '\x7d'])).length + 1 = ((escString msg.data).length + 11) + 3 := by
    simp
  rw [show skipWs ('\x7b' :: '"' :: 'e' :: 'r' :: 'r' :: 'o' :: 'r' :: '"' :: ':' :: ' ' :: '"' ::
    (escString msg.data ++ ['"', '\x7d'])) = '\x7b' :: '"' :: 'e' :: 'r' :: 'r' :: 'o' :: 'r' :: '"' ::
    ':' :: ' ' :: '"' :: (escString msg.data ++ ['"', '\x7d']) from by simp [skipWs, jsWS]]
  rw [hlen, pValue_dumps]
  simp [skipWs]

/-- C8.  For every environment (API key present or not, model reply or
exception, arbitrary messages) and every input, the string returned by
`analyze_proposal_with_gemini` parses as valid JSON: each error path
returns `json.dumps` of an object with an `error` key, and the success
path is returned only after `json.loads` validation. -/
theorem c8_json_validity (env : GeminiEnv) (content : String) :
    jsonValidB (analyze_proposal_with_gemini env content) = true := by
  rcases env with ⟨key?, resp, le⟩
  cases key? with
  | none => exact jsonValidB_dumpsError _
  | some key =>
    simp only [analyze_proposal_with_gemini]
    by_cases hk : key = ""
    · rw [if_pos hk]
      exact jsonValidB_dumpsError _
    · rw [if_neg hk]
      cases resp with
      | error e => exact jsonValidB_dumpsError _
      | ok raw =>
        dsimp only
        by_cases hX : jsonValidB (stripFences raw) = true
        · rw [if_pos hX]
          exact hX
        · rw [if_neg hX]
          exact jsonValidB_dumpsError _

/-! ## C1: representation of anchors as markdown link tokens -/

/-- The spec-side rendering agrees with what the code computes: the text
extracted after the link pass is exactly the document text with each
qualifying anchor contributing its markdown token once, in document
order. -/
theorem getTextF_rewriteForest (f : List Node) :
    getTextF (rewriteForest f) = renderSpecF f := by
  induction f using forestRec with
  | h1 => simp [rewriteForest, getTextF, renderSpecF]
  | h2 s rest ih => simp [rewriteForest, getTextF, renderSpecF, ih]
  | h3 t a c rest ihc ihr =>
    by_cases h : isQAnchor (.elem t a c) = true
    · rw [rewriteForest]
      rw [if_pos h, getTextF, renderSpecF, if_pos h, ihr]
    · rw [rewriteForest]
      rw [if_neg h, getTextF, renderSpecF, if_neg h, ihc, ihr]

theorem renderSpecF_cons (m : Node) (rest : List Node) :
    ∃ pre, renderSpecF (m :: rest) = pre ++ renderSpecF rest := by
  cases m with
  | text s => exact ⟨s.data, by rw [renderSpecF]⟩
  | elem t a c =>
    by_cases h : isQAnchor (.elem t a c) = true
    · exact ⟨tokenOf a c, by rw [renderSpecF, if_pos h]⟩
    · exact ⟨renderSpecF c, by rw [renderSpecF, if_neg h]⟩

/-- A qualifying anchor at a live position contributes its token to the
rendered text. -/
theorem render_contains {n : Node} {f : List Node} (h : InForest n f) :
    ∀ attrs children, n = .elem "a" attrs children → isQAnchor n = true →
    ∃ p q, renderSpecF f = p ++ tokenOf attrs children ++ q := by
  induction h with
  | head rest =>
    intro attrs children hn hq
    subst hn
    rw [renderSpecF, if_pos hq]
    exact ⟨[], renderSpecF rest, by simp⟩
  | tail hin ih =>
    intro attrs children hn hq
    obtain ⟨p, q, hpq⟩ := ih attrs children hn hq
    obtain ⟨pre, hpre⟩ := renderSpecF_cons _ _
    refine ⟨pre ++ p, q, ?_⟩
    rw [hpre, hpq]
    simp
  | @child t a c rest hq0 hin ih =>
    intro attrs children hn hq
    obtain ⟨p, q, hpq⟩ := ih attrs children hn hq
    refine ⟨p, q ++ renderSpecF rest, ?_⟩
    rw [renderSpecF, if_neg (by simp [hq0]), hpq]
    simp

/-- A newline-free, non-empty segment of the input ends up inside a
single line of `slp`. -/
theorem slp_infix_aux : ∀ (a t b : List Char), t ≠ [] →
    (∀ c ∈ t, c ≠ '\n' ∧ c ≠ '\r') →
    ∃ line, line ∈ slp (a ++ t ++ b) ∧ ∃ u v, line = u ++ t ++ v
  | [], t, b, hne, hnl => by
    rw [List.nil_append, slp_prepend t b hne hnl]
    cases h : slp b with
    | nil => exact ⟨t, List.mem_singleton_self _, [], [], by simp⟩
    | cons l ls => exact ⟨t ++ l, List.mem_cons_self _ _, [], l, by simp⟩
  | c :: a', t, b, hne, hnl => by
    by_cases h1 : c = '\r' ∧ (a' ++ t ++ b).head? = some '\n'
    · have ha' : a' ≠ [] := by
        intro hcontr
        subst hcontr
        rw [List.nil_append] at h1
        cases t with
        | nil => exact hne rfl
        | cons tc tr =>
          have := (hnl tc (List.mem_cons_self _ _)).1
          simp at h1
          exact this h1.2
      obtain ⟨y, a'', rfl⟩ := List.exists_cons_of_ne_nil ha'
      simp only [List.cons_append]
      rw [slp, if_pos (by simpa using h1)]
      obtain ⟨line, hmem, u, v, huv⟩ := slp_infix_aux a'' t b hne hnl
      exact ⟨line, List.mem_cons_of_mem _ (by simpa using hmem), u, v, huv⟩
    · by_cases h2 : c = '\n' ∨ c = '\r'
      · simp only [List.cons_append]
        rw [slp, if_neg (by simpa using h1), if_pos h2]
        obtain ⟨line, hmem, u, v, huv⟩ := slp_infix_aux a' t b hne hnl
        exact ⟨line, List.mem_cons_of_mem _ hmem, u, v, huv⟩
      · push_neg at h2
        simp only [List.cons_append]
        rw [slp_cons_other c _ h2.1 h2.2]
        obtain ⟨line, hmem, u, v, huv⟩ := slp_infix_aux a' t b hne hnl
        cases hsl : slp (a' ++ t ++ b) with
        | nil =>
          rw [hsl] at hmem
          simp at hmem
        | cons l ls =>
          rw [hsl] at hmem
          rcases List.mem_cons.mp hmem with rfl | hmem2
          · exact ⟨c :: line, List.mem_cons_self _ _, c :: u, v, by simp [huv]⟩
          · exact ⟨line, List.mem_cons_of_mem _ hmem2, u, v, huv⟩
termination_by a => a.length

/-- Dropping leading whitespace cannot break a segment whose first
character is not whitespace. -/
theorem dropLeadWS_infix : ∀ (a t b : List Char) (hc : Char),
    t.head? = some hc → pyWS hc = false →
    ∃ a2, dropLeadWS (a ++ t ++ b) = a2 ++ t ++ b
  | [], t, b, hc, hh, hws => by
    cases t with
    | nil => simp at hh
    | cons c0 t' =>
      simp only [List.head?_cons, Option.some.injEq] at hh
      subst hh
      rw [List.nil_append, List.cons_append, dropLeadWS]
      rw [if_neg (by simp [hws])]
      exact ⟨[], by simp⟩
  | x :: a', t, b, hc, hh, hws => by
    simp only [List.cons_append]
    rw [dropLeadWS]
    by_cases hx : pyWS x
    · rw [if_pos hx]
      exact dropLeadWS_infix a' t b hc hh hws
    · rw [if_neg hx]
      exact ⟨x :: a', by simp⟩

/-- Stripping cannot break a segment whose first and last characters are
not whitespace. -/
theorem stripChars_infix (a t b : List Char) (hc lc : Char)
    (hh : t.head? = some hc) (hws : pyWS hc = false)
    (hl : t.reverse.head? = some lc) (lws : pyWS lc = false) :
    ∃ a2 b2, stripChars (a ++ t ++ b) = a2 ++ t ++ b2 := by
  have hrev : (a ++ t ++ b).reverse = b.reverse ++ t.reverse ++ a.reverse := by
    simp [List.reverse_append]
  obtain ⟨a3, ha3⟩ := dropLeadWS_infix b.reverse t.reverse a.reverse lc hl lws
  have htrail : dropTrailWS (a ++ t ++ b) = a ++ t ++ a3.reverse := by
    unfold dropTrailWS
    rw [hrev, ha3]
    simp [List.reverse_append]
  obtain ⟨a4, ha4⟩ := dropLeadWS_infix a t a3.reverse hc hh hws
  exact ⟨a4, a3.reverse, by rw [stripChars, htrail, ha4]⟩

/-- No two consecutive spaces anywhere in the list. -/
def noDouble : List Char → Bool
  | [] => true
  | [_] => true
  | a :: b :: rest => !(a = ' ' && b = ' ') && noDouble (b :: rest)

theorem splitTwoSp_ne_nil (l : List Char) : splitTwoSp l ≠ [] := by
  cases l with
  | nil => simp [splitTwoSp]
  | cons c rest =>
    rw [splitTwoSp]
    by_cases h : c = ' ' ∧ rest.head? = some ' '
    · simp [h]
    · rw [if_neg h]
      cases splitTwoSp rest <;> simp

/-- Prepending a double-space-free text not ending in a space extends the
first chunk of a two-space split. -/
theorem sts_prepend : ∀ (t b : List Char), t ≠ [] → noDouble t = true →
    ∀ lc : Char, t.reverse.head? = some lc → lc ≠ ' ' →
    ∃ f r, splitTwoSp b = f :: r ∧ splitTwoSp (t ++ b) = (t ++ f) :: r
  | [], _, hne, _, _, _, _ => absurd rfl hne
  | [c], b, _, _, lc, hlc, hsp => by
    simp only [List.reverse_singleton, List.head?_cons, Option.some.injEq] at hlc
    subst hlc
    cases hb : splitTwoSp b with
    | nil => exact absurd hb (splitTwoSp_ne_nil b)
    | cons f r =>
      refine ⟨f, r, rfl, ?_⟩
      simp only [List.singleton_append]
      rw [splitTwoSp, if_neg (by simp [hsp]), hb]
  | c :: d :: t'', b, _, hnd, lc, hlc, hsp => by
    have hnd2 := hnd
    rw [noDouble, Bool.and_eq_true] at hnd2
    obtain ⟨hcd0, hnd'⟩ := hnd2
    have hcd : ¬(c = ' ' ∧ d = ' ') := by
      intro hcontr
      rw [hcontr.1, hcontr.2] at hcd0
      simp at hcd0
    have hlc' : (d :: t'').reverse.head? = some lc := by
      have hrev : (c :: d :: t'').reverse = (d :: t'').reverse ++ [c] := by simp
      rw [hrev, head?_append_left _ _ (by simp)] at hlc
      exact hlc
    obtain ⟨f, r, hb, ht⟩ := sts_prepend (d :: t'') b (by simp) hnd' lc hlc' hsp
    refine ⟨f, r, hb, ?_⟩
    have hcond : ¬(c = ' ' ∧ (d :: (t'' ++ b)).head? = some ' ') := by
      intro hcontr
      apply hcd
      refine ⟨hcontr.1, ?_⟩
      have := hcontr.2
      simp only [List.head?_cons, Option.some.injEq] at this
      rw [this]
    simp only [List.cons_append] at ht ⊢
    rw [splitTwoSp, if_neg hcond, ht]

/-- A double-space-free segment that neither starts nor ends with a space
lies inside a single chunk of the two-space split. -/
theorem sts_infix_aux : ∀ (a t b : List Char), t ≠ [] → noDouble t = true →
    ∀ hc lc : Char, t.head? = some hc → hc ≠ ' ' →
    t.reverse.head? = some lc → lc ≠ ' ' →
    ∃ ph, ph ∈ splitTwoSp (a ++ t ++ b) ∧ ∃ u v, ph = u ++ t ++ v
  | [], t, b, hne, hnd, hc, lc, hh, hhs, hl, hls => by
    obtain ⟨f, r, _, ht⟩ := sts_prepend t b hne hnd lc hl hls
    rw [List.nil_append, ht]
    exact ⟨t ++ f, List.mem_cons_self _ _, [], f, by simp⟩
  | x :: a', t, b, hne, hnd, hc, lc, hh, hhs, hl, hls => by
    by_cases h1 : x = ' ' ∧ (a' ++ t ++ b).head? = some ' '
    · have ha' : a' ≠ [] := by
        intro hcontr
        subst hcontr
        rw [List.nil_append] at h1
        cases t with
        | nil => exact hne rfl
        | cons tc tr =>
          simp only [List.cons_append, List.head?_cons, Option.some.injEq] at h1
          simp only [List.head?_cons, Option.some.injEq] at hh
          exact hhs (hh.symm.trans h1.2)
      obtain ⟨y, a'', rfl⟩ := List.exists_cons_of_ne_nil ha'
      simp only [List.cons_append]
      rw [splitTwoSp, if_pos (by simpa using h1)]
      obtain ⟨ph, hmem, u, v, huv⟩ :=
        sts_infix_aux a'' t b hne hnd hc lc hh hhs hl hls
      exact ⟨ph, List.mem_cons_of_mem _ (by simpa using hmem), u, v, huv⟩
    · simp only [List.cons_append]
      rw [splitTwoSp, if_neg (by simpa using h1)]
      obtain ⟨ph, hmem, u, v, huv⟩ :=
        sts_infix_aux a' t b hne hnd hc lc hh hhs hl hls
      simp only [List.append_assoc] at hmem ⊢
      cases hsl : splitTwoSp (a' ++ (t ++ b)) with
      | nil => exact absurd hsl (splitTwoSp_ne_nil _)
      | cons l ls =>
        rw [hsl] at hmem
        rcases List.mem_cons.mp hmem with rfl | hmem2
        · exact ⟨x :: ph, List.mem_cons_self _ _, x :: u, v, by simp [huv]⟩
        · exact ⟨ph, List.mem_cons_of_mem _ hmem2, u, v, by simp [huv]⟩
termination_by a => a.length

theorem intercalateNL_infix : ∀ (K : List (List Char)) (x : List Char),
    x ∈ K → ∀ t u v, x = u ++ t ++ v →
    ∃ p q, intercalateNL K = p ++ t ++ q
  | [], x, hx, _, _, _, _ => absurd hx (List.not_mem_nil x)
  | k :: K', x, hx, t, u, v, huv => by
    rcases List.mem_cons.mp hx with rfl | hx2
    · cases K' with
      | nil => exact ⟨u, v, by rw [intercalateNL, huv]⟩
      | cons y K'' =>
        refine ⟨u, v ++ '\n' :: intercalateNL (y :: K''), ?_⟩
        rw [show intercalateNL (x :: y :: K'') =
          x ++ '\n' :: intercalateNL (y :: K'') from rfl, huv]
        simp
    · obtain ⟨p, q, hpq⟩ := intercalateNL_infix K' x hx2 t u v huv
      cases K' with
      | nil => simp at hx2
      | cons y K'' =>
        refine ⟨k ++ '\n' :: p, q, ?_⟩
        rw [show intercalateNL (k :: y :: K'') =
          k ++ '\n' :: intercalateNL (y :: K'') from rfl, hpq]
        simp

theorem mem_splitChunks_of (M : List (List Char)) (x y : List Char)
    (hx : x ∈ M) (hy : y ∈ splitTwoSp x) : y ∈ splitChunks M := by
  induction M with
  | nil => simp at hx
  | cons m M' ih =>
    rw [splitChunks]
    rcases List.mem_cons.mp hx with rfl | hx2
    · exact List.mem_append_left _ hy
    · exact List.mem_append_right _ (ih hx2)

/-- No line-break character anywhere in the list. -/
def noNLB (l : List Char) : Bool :=
  l.all (fun c => !(c = '\n' || c = '\r'))

theorem noNLB_spec (l : List Char) (h : noNLB l = true) :
    ∀ c ∈ l, c ≠ '\n' ∧ c ≠ '\r' := by
  intro c hc
  have := List.all_eq_true.mp h c hc
  simp at this
  exact this

/-- The whitespace cleanup keeps intact any segment that is free of
line breaks and double spaces and neither starts nor ends with
whitespace. -/
theorem cleanedText_contains (p q t : List Char) (hne : t ≠ [])
    (hnl : noNLB t = true) (hnd : noDouble t = true)
    (hc lc : Char) (hh : t.head? = some hc) (hhs : pyWS hc = false)
    (hl : t.reverse.head? = some lc) (hls : pyWS lc = false) :
    ∃ u v, cleanedText (p ++ t ++ q) = u ++ t ++ v := by
  have hcsp : hc ≠ ' ' := by
    intro hcontr
    rw [hcontr] at hhs
    simp [pyWS] at hhs
  have hlsp : lc ≠ ' ' := by
    intro hcontr
    rw [hcontr] at hls
    simp [pyWS] at hls
  obtain ⟨line, hline, u1, v1, huv1⟩ :=
    slp_infix_aux p t q hne (noNLB_spec t hnl)
  obtain ⟨u2, v2, huv2⟩ := stripChars_infix u1 t v1 hc lc hh hhs hl hls
  have hline2 : stripChars line ∈ (slp (p ++ t ++ q)).map stripChars :=
    List.mem_map_of_mem stripChars hline
  obtain ⟨ph, hph, u3, v3, huv3⟩ :=
    sts_infix_aux u2 t v2 hne hnd hc lc hh hcsp hl hlsp
  rw [← huv2, ← huv1] at hph
  have hph2 : ph ∈ splitChunks ((slp (p ++ t ++ q)).map stripChars) :=
    mem_splitChunks_of _ _ _ hline2 hph
  obtain ⟨u4, v4, huv4⟩ := stripChars_infix u3 t v3 hc lc hh hhs hl hls
  have hph3 : stripChars ph ∈
      (splitChunks ((slp (p ++ t ++ q)).map stripChars)).map stripChars :=
    List.mem_map_of_mem stripChars hph2
  have hne2 : stripChars ph ≠ [] := by
    rw [huv3, huv4]
    cases t with
    | nil => exact absurd rfl hne
    | cons c0 t0 => simp
  have hph4 : stripChars ph ∈
      ((splitChunks ((slp (p ++ t ++ q)).map stripChars)).map stripChars).filter
        (fun c => !c.isEmpty) := by
    rw [List.mem_filter]
    exact ⟨hph3, by simpa using hne2⟩
  have hclean : cleanedText (p ++ t ++ q) =
      intercalateNL (((splitChunks ((slp (p ++ t ++ q)).map stripChars)).map
        stripChars).filter (fun c => !c.isEmpty)) := rfl
  rw [hclean]
  exact intercalateNL_infix _ _ hph4 t u4 v4 (by rw [huv3, huv4])

theorem tokenOf_head (attrs : List (String × String)) (children : List Node) :
    (tokenOf attrs children).head? = some '[' := rfl

theorem tokenOf_last (attrs : List (String × String)) (children : List Node) :
    (tokenOf attrs children).reverse.head? = some ')' := by
  have hshape : tokenOf attrs children =
      ('[' :: (anchorTextF children ++
        (']' :: '(' :: ((getAttr attrs "href").getD "").data))) ++ [')'] := by
    rw [tokenOf]
    simp
  rw [hshape, List.reverse_append]
  rfl

theorem tokenOf_ne_nil (attrs : List (String × String)) (children : List Node) :
    tokenOf attrs children ≠ [] := by
  rw [tokenOf]
  simp

/-- C1, as amended.  (a) The text extracted after the link pass is
exactly the spec rendering: every anchor with non-empty stripped text and
a non-empty href not starting with `#` or `javascript:` is represented
by exactly one markdown token `[text](href)`, in document order, and
every other anchor only contributes its plain text.  (b) After the
whitespace cleanup, the token of any such anchor that sits at a live
position of the script-stripped document survives as an exact substring
of the final output, provided the token contains no line-break characters
and no double-space run. -/
theorem c1_token_representation (doc : List Node)
    (attrs : List (String × String)) (children : List Node)
    (hin : InForest (.elem "a" attrs children) (stripScriptsF doc))
    (hq : isQAnchor (.elem "a" attrs children) = true)
    (hnl : noNLB (tokenOf attrs children) = true)
    (hnd : noDouble (tokenOf attrs children) = true) :
    (∀ f, getTextF (rewriteForest f) = renderSpecF f) ∧
    containsL (tokenOf attrs children)
      ((fetch_url_content (.success doc)).data) = true := by
  refine ⟨getTextF_rewriteForest, ?_⟩
  rw [containsL_iff]
  have hdata : (fetch_url_content (.success doc)).data =
      cleanedText (getTextF (rewriteForest (stripScriptsF doc))) := rfl
  rw [hdata, getTextF_rewriteForest]
  obtain ⟨p, q, hpq⟩ := render_contains hin attrs children rfl hq
  rw [hpq]
  obtain ⟨u, v, huv⟩ := cleanedText_contains p q (tokenOf attrs children)
    (tokenOf_ne_nil attrs children) hnl hnd '[' ')'
    (tokenOf_head attrs children) (by decide)
    (tokenOf_last attrs children) (by decide)
  exact ⟨u, v, huv⟩

/-- Counterexample to C1 as stated: an anchor whose visible text contains
a double space qualifies for link conversion, but the cleanup splits its
markdown token across two lines, so the output does not contain the
substring `[<text>](<href>)`. -/
theorem c1_counterexample :
    isQAnchor (.elem "a" [("href", "https://example.com")] [Node.text "a  b"]) = true ∧
    anchorTextF [Node.text "a  b"] = "a  b".data ∧
    containsL "[a  b](https://example.com)".data
      ((fetch_url_content (.success
        [Node.elem "a" [("href", "https://example.com")] [Node.text "a  b"]])).data)
      = false := by
  refine ⟨?_, ?_, ?_⟩ <;>
    simp [isQAnchor, anchorTextF, getAttr, startsL, stripChars, dropLeadWS, dropTrailWS,
      pyWS, fetch_url_content, extractFromDoc, cleanedText, getTextF, rewriteForest,
      stripScriptsF, tokenOf, slp, splitTwoSp, splitChunks, intercalateNL, containsL]

/-- Witness for C1 at a concrete page: the link token of a clean anchor
survives into the final output. -/
theorem c1_token_representation_witness :
    containsL (tokenOf [("href", "https://example.com")] [Node.text "Example"])
      ((fetch_url_content (.success
        [Node.elem "p" []
          [Node.text "Hello ",
           Node.elem "a" [("href", "https://example.com")] [Node.text "Example"],
           Node.text " world"]])).data) = true :=
  (c1_token_representation
    [Node.elem "p" []
      [Node.text "Hello ",
       Node.elem "a" [("href", "https://example.com")] [Node.text "Example"],
       Node.text " world"]]
    [("href", "https://example.com")] [Node.text "Example"]
    (by
      rw [show stripScriptsF
        [Node.elem "p" []
          [Node.text "Hello ",
           Node.elem "a" [("href", "https://example.com")] [Node.text "Example"],
           Node.text " world"]] =
        [Node.elem "p" []
          [Node.text "Hello ",
           Node.elem "a" [("href", "https://example.com")] [Node.text "Example"],
           Node.text " world"]] from by simp [stripScriptsF]]
      exact .child (by simp [isQAnchor]) (.tail (.head _ _)))
    (by simp [isQAnchor, getAttr, anchorTextF, stripChars, dropLeadWS, dropTrailWS,
      pyWS, startsL])
    (by simp [noNLB, tokenOf, anchorTextF, getAttr, stripChars, dropLeadWS,
      dropTrailWS, pyWS])
    (by simp [noDouble, tokenOf, anchorTextF, getAttr, stripChars, dropLeadWS,
      dropTrailWS, pyWS])).2
